import Mathlib

/-!
Shallow embedding of the neuralnet-rs core (dense layers, activations,
cross-entropy loss) over exact reals. Each Rust `f64` value is modelled as a
real number; an ndarray `Array2<f64>` is modelled as a list of row lists and an
`Array1` as a list. Operations that can panic in Rust (out-of-bounds indexing,
non-broadcastable elementwise products) return `Option`, with `none` standing
for the panic.
-/

/-- A 2-D matrix: list of rows. -/
abbrev Mat : Type := List (List ℝ)

/-- A 1-D vector. -/
abbrev Vec : Type := List ℝ

/-- Row count of a matrix (ndarray `dim().0`). -/
def dim0 (m : Mat) : ℕ := m.length

/-- Column count of a matrix, read off the first row (ndarray `dim().1`).
For the rectangular matrices ndarray produces this is the common row length;
an empty list cannot record a positive column count, which is the one place
the list model is coarser than `Array2`. -/
def dim1 (m : Mat) : ℕ := (m.headD []).length

/-- `m` is a rectangular `r × c` matrix. -/
def matShape (m : Mat) (r c : ℕ) : Prop :=
  m.length = r ∧ ∀ row ∈ m, row.length = c

/-- Rust `inputs.mapv(|x| x.max(0.0))` (both copies of the source define it
identically). -/
noncomputable def relu (inputs : Mat) : Mat :=
  inputs.map (fun row => row.map (fun x => max x 0))

/-- The single maximum over every element of the matrix, from
`inputs.iter().fold(f64::NEG_INFINITY, |a, &b| a.max(b))`.  The
`NEG_INFINITY` seed is observable only when the matrix has no elements, in
which case the maximum is never used (there is nothing to subtract it from),
so the default value of `getD` is irrelevant. -/
noncomputable def globalMax (m : Mat) : ℝ :=
  (m.flatten.max?).getD 0

/-- Rust `softmax` (identical in `layer.rs` and `activation_function.rs`):
subtract the global maximum, exponentiate, then divide each element by the sum
of its own row. -/
noncomputable def softmax (inputs : Mat) : Mat :=
  let m := globalMax inputs
  let exps := inputs.map (fun row => row.map (fun x => Real.exp (x - m)))
  exps.map (fun row => row.map (fun x => x / row.sum))

/-- The softmax algorithm exactly as the specification words it: subtract the
single global maximum from every element and exponentiate, sum the
exponentials along each row, and divide every element of a row by the sum of
that row. Written from the spec, to be compared with `softmax`. -/
noncomputable def softmaxSpec (inputs : Mat) : Mat :=
  let m := globalMax inputs
  inputs.map (fun row =>
    row.map (fun x => Real.exp (x - m) / (row.map (fun y => Real.exp (y - m))).sum))

/-- Activation selector, bound at layer construction. -/
inductive LayerActivation : Type
| ReLU : LayerActivation
| Softmax : LayerActivation

/-- `activation_function.rs` wrapper around the selector. -/
structure ActivationFunction : Type where
  activation : LayerActivation

/-- `ActivationFunction::forward`: dispatch on the bound selector. -/
noncomputable def ActivationFunction.forward (a : ActivationFunction) (inputs : Mat) : Mat :=
  match a.activation with
  | .ReLU => relu inputs
  | .Softmax => softmax inputs

/-- `LayerArrayError` from `layer.rs`. -/
inductive LayerArrayError : Type
| IncorrectDimension : String → LayerArrayError

/-- A dense layer with `NEURONS` neurons and `FAN_IN` inputs per neuron.
The const-generic parameters of the Rust struct become type indices. -/
structure Layer (NEURONS FAN_IN : ℕ) : Type where
  weights : Mat
  biases : Vec
  activation : LayerActivation

/-- `Layer::random_weights`: `Array::random((FAN_IN, NEURONS), normal)`.
The draws of the standard normal distribution are abstracted as an arbitrary
function `sample` of the position; only the produced shape `FAN_IN × NEURONS`
is determined by the code. -/
def randomWeights (NEURONS FAN_IN : ℕ) (sample : ℕ → ℕ → ℝ) : Mat :=
  (List.range FAN_IN).map (fun i => (List.range NEURONS).map (fun j => sample i j))

/-- `Layer::new`: weights are `0.01 *` a random `FAN_IN × NEURONS` matrix,
biases are `NEURONS` zeros. -/
def Layer.new (NEURONS FAN_IN : ℕ) (activation : LayerActivation)
    (sample : ℕ → ℕ → ℝ) : Layer NEURONS FAN_IN :=
  { weights := (randomWeights NEURONS FAN_IN sample).map (fun row => row.map (fun x => 0.01 * x))
    biases := List.replicate NEURONS 0
    activation := activation }

/-- The first error message of `Layer::set_weights` (row-count mismatch). -/
def weightsRowsMsg (n r : ℕ) : String :=
  s!"{n} neurons exist in this layer, but {r} sets of weights were provided."

/-- The second error message of `Layer::set_weights` (row-length mismatch). -/
def weightsColsMsg (f c : ℕ) : String :=
  s!"Neurons in this layer have {f} weights each, but {c} weights were provided in each set."

/-- The error message of `Layer::set_biases`. -/
def biasesMsg (n k : ℕ) : String :=
  s!"{n} neurons exist in this layer, but {k} biases were provided."

/-- `Layer::set_weights`.  The Rust method mutates `self` and returns
`Result<(), LayerArrayError>`; here the post-state is returned together with
the error component (`none` standing for `Ok(())`).  Note the checks: the
row count of the new matrix is compared against `NEURONS` and the row length
against `FAN_IN`. -/
def Layer.set_weights {N F : ℕ} (l : Layer N F) (new_weights : Mat) :
    Layer N F × Option LayerArrayError :=
  if dim0 new_weights ≠ N then
    (l, some (.IncorrectDimension (weightsRowsMsg N (dim0 new_weights))))
  else if dim1 new_weights ≠ F then
    (l, some (.IncorrectDimension (weightsColsMsg F (dim1 new_weights))))
  else
    ({ l with weights := new_weights }, none)

/-- `Layer::set_biases`. -/
def Layer.set_biases {N F : ℕ} (l : Layer N F) (new_biases : Vec) :
    Layer N F × Option LayerArrayError :=
  if new_biases.length ≠ N then
    (l, some (.IncorrectDimension (biasesMsg N new_biases.length)))
  else
    ({ l with biases := new_biases }, none)

/-- ndarray `a.dot(&b)` for 2-D arrays: entry `(i, j)` is the dot product of
row `i` of `a` with column `j` of `b`.  (The Rust call panics when the inner
dimensions disagree; the claims below only use it with matching shapes, where
the `zipWith` pairing is exact.) -/
def matmul (a b : Mat) : Mat :=
  a.map (fun row =>
    (List.range (dim1 b)).map (fun j =>
      (List.zipWith (fun x brow => x * List.getD brow j 0) row b).sum))

/-- ndarray `m + &biases`: the bias vector is broadcast across the rows. -/
def addBias (m : Mat) (biases : Vec) : Mat :=
  m.map (fun row => List.zipWith (fun x b => x + b) row biases)

/-- `Layer::forward`: `inputs.dot(&self.weights) + &self.biases`, then the
bound activation. -/
noncomputable def Layer.forward {N F : ℕ} (l : Layer N F) (inputs : Mat) : Mat :=
  let intermediate_output := addBias (matmul inputs l.weights) l.biases
  match l.activation with
  | .ReLU => relu intermediate_output
  | .Softmax => softmax intermediate_output

namespace CrossEntropy

/-- `CrossEntropy::determine_correct_confidences_sparse`:
`outputs.outer_iter().zip(targets).map(|(output, t)| output[t])`.
`zip` truncates at the shorter of the two sequences; the row indexing
`output[t]` panics in Rust when `t` is out of bounds, modelled by `none`. -/
def determine_correct_confidences_sparse (outputs : Mat) (target_output_set : List ℕ) :
    Option Vec :=
  (outputs.zip target_output_set).mapM (fun p => p.1[p.2]?)

/-- ndarray `a * b` on two 2-D arrays: `b` is broadcast to the shape of `a`
(each broadcast dimension of `b` must equal the corresponding dimension of
`a` or be `1`), then the product is taken elementwise; when broadcasting is
impossible the Rust operation panics, modelled by `none`.  The result has the
shape of `a`. -/
def broadcastMul (a b : Mat) : Option Mat :=
  if (dim0 b = dim0 a ∨ dim0 b = 1) ∧ (dim1 b = dim1 a ∨ dim1 b = 1) then
    some ((List.range (dim0 a)).map (fun i =>
      (List.range (dim1 a)).map (fun j =>
        List.getD (List.getD a i []) j 0 *
          List.getD (List.getD b (if dim0 b = 1 then 0 else i) [])
            (if dim1 b = 1 then 0 else j) 0)))
  else none

/-- `CrossEntropy::determine_correct_confidences_one_hot`:
`(outputs * target_output_set).sum_axis(Axis(1))`. -/
def determine_correct_confidences_one_hot (outputs : Mat) (target_output_set : Mat) :
    Option Vec :=
  (broadcastMul outputs target_output_set).map (fun m => m.map List.sum)

/-- `CrossEntropy::cross_entropy`: per-example loss `-1.0 * confidence.ln()`. -/
noncomputable def cross_entropy (confidences : Vec) : Vec :=
  confidences.map (fun confidence => -1 * Real.log confidence)

/-- `CrossEntropy::clip_values`: `values.mapv(|val| val.clamp(1E-7, 1. - 1E-7))`. -/
noncomputable def clip_values (values : Mat) : Mat :=
  values.map (fun row => row.map (fun val => max (1e-7) (min val (1 - 1e-7))))

/-- `LossCalculation::forward_sparse` for `CrossEntropy`: clip, select the
confidence of the true class of each example, then `-ln`. -/
noncomputable def forward_sparse (outputs : Mat) (target_outputs : List ℕ) : Option Vec :=
  (determine_correct_confidences_sparse (clip_values outputs) target_outputs).map cross_entropy

/-- `LossCalculation::forward_onehot` for `CrossEntropy`. -/
noncomputable def forward_onehot (outputs : Mat) (target_outputs : Mat) : Option Vec :=
  (determine_correct_confidences_one_hot (clip_values outputs) target_outputs).map cross_entropy

end CrossEntropy

/-- `LossFunctionTargetEncoding` from `loss_function/mod.rs`. -/
inductive LossFunctionTargetEncoding : Type
| OneHot : LossFunctionTargetEncoding
| Sparse : LossFunctionTargetEncoding

/-- The two `LossTargetData` implementations (`OneHotLossTargetData`,
`SparseLossTargetData`), as the tagged union the trait encodes at runtime. -/
inductive LossTargetData : Type
| onehot : Mat → LossTargetData
| sparse : List ℕ → LossTargetData

/-- `LossTargetData::encoding`: each variant reports its own tag. -/
def LossTargetData.encoding : LossTargetData → LossFunctionTargetEncoding
  | .onehot _ => .OneHot
  | .sparse _ => .Sparse

/-- `LossTargetData::get_onehot`; the sparse variant panics (`none`). -/
def LossTargetData.get_onehot : LossTargetData → Option Mat
  | .onehot data => some data
  | .sparse _ => none

/-- `LossTargetData::get_sparse`; the one-hot variant panics (`none`). -/
def LossTargetData.get_sparse : LossTargetData → Option (List ℕ)
  | .onehot _ => none
  | .sparse data => some data

/-- ndarray `Array1::mean()`: `none` on an empty vector, otherwise the
arithmetic mean. -/
noncomputable def meanOpt (v : Vec) : Option ℝ :=
  if v.length = 0 then none else some (v.sum / v.length)

namespace LossFunction

/-- `LossFunction::calculate` with the only bound implementation,
`CrossEntropy`: inspect the encoding tag, route to the matching entry point,
and reduce the per-example losses with `.mean().unwrap_or(0.0)`.  The outer
`Option` is `none` exactly when the Rust call panics. -/
noncomputable def calculate (outputs : Mat) (target_outputs : LossTargetData) : Option ℝ :=
  match target_outputs.encoding with
  | .OneHot =>
    target_outputs.get_onehot.bind (fun d =>
      (CrossEntropy.forward_onehot outputs d).map (fun v => (meanOpt v).getD 0))
  | .Sparse =>
    target_outputs.get_sparse.bind (fun d =>
      (CrossEntropy.forward_sparse outputs d).map (fun v => (meanOpt v).getD 0))

end LossFunction

/-- The one-hot encoding of a list of class labels over `c` classes: one row
per label, with a `1` at the label index and `0` elsewhere. -/
def oneHotEncode (labels : List ℕ) (c : ℕ) : Mat :=
  labels.map (fun t => (List.range c).map (fun j => if j = t then (1 : ℝ) else 0))

/-! ## Helper lemmas -/

lemma dim1_of_shape {m : Mat} {r c : ℕ} (h : matShape m r c) (hr : 0 < r) :
    dim1 m = c := by
  obtain ⟨hlen, hrows⟩ := h
  cases m with
  | nil => simp at hlen; omega
  | cons hd tl => simpa [dim1] using hrows hd (List.mem_cons_self hd tl)

lemma headD_mem {α : Type} (l : List α) (d : α) (h : l ≠ []) : l.headD d ∈ l := by
  cases l with
  | nil => exact absurd rfl h
  | cons a t => simp

lemma sum_map_div (l : Vec) (s : ℝ) : (l.map (fun x => x / s)).sum = l.sum / s := by
  induction l with
  | nil => simp
  | cons a t ih => simp [ih, add_div]

lemma globalMax_spec (m : Mat) :
    (∀ x ∈ m.flatten, x ≤ globalMax m) ∧ (m.flatten ≠ [] → globalMax m ∈ m.flatten) := by
  unfold globalMax
  cases h : m.flatten.max? with
  | none => simp [List.max?_eq_none_iff.mp h]
  | some a =>
    have hmem : a ∈ m.flatten := List.max?_mem (fun a b => max_choice a b) h
    have hle : ∀ b ∈ m.flatten, b ≤ a :=
      (List.max?_le_iff (fun a b c => max_le_iff) h).1 (le_refl a)
    simp only [h, Option.getD_some]
    exact ⟨hle, fun _ => hmem⟩

/-! ## Claim theorems -/

/-- C4: `softmax` computes exactly the algorithm of the specification: the
single global maximum of the whole matrix (largest element, and an element
whenever one exists) is subtracted from every entry before exponentiation,
each row of exponentials is summed, every entry is divided by the sum of its
own row, and the output has the same shape as the input. -/
theorem softmax_algorithm (m : Mat) :
    softmax m = softmaxSpec m ∧
    (softmax m).map List.length = m.map List.length ∧
    (∀ x ∈ m.flatten, x ≤ globalMax m) ∧
    (m.flatten ≠ [] → globalMax m ∈ m.flatten) := by
  refine ⟨?_, ?_, (globalMax_spec m).1, (globalMax_spec m).2⟩
  · simp [softmax, softmaxSpec, List.map_map, Function.comp]
  · simp [softmax, List.map_map, Function.comp]

/-- C5: for every input matrix whose rows are nonempty (at least one column),
each row of the softmax output sums to exactly `1` and every element lies in
`[0, 1]`.  Over the exact reals of the embedding the row sums are exactly `1`,
which in particular is within any floating-point tolerance; the statement
holds for inputs of arbitrary magnitude. -/
theorem softmax_rows_sum_one (m : Mat) (h : ∀ row ∈ m, row ≠ []) :
    ∀ row ∈ softmax m, row.sum = 1 ∧ ∀ x ∈ row, 0 ≤ x ∧ x ≤ 1 := by
  intro row hrow
  simp only [softmax, List.mem_map] at hrow
  obtain ⟨r1, ⟨row₀, hrow₀, rfl⟩, rfl⟩ := hrow
  set E : Vec := row₀.map (fun x => Real.exp (x - globalMax m)) with hE
  have hEne : E ≠ [] := by
    simp [hE, h row₀ hrow₀]
  have hEpos : ∀ y ∈ E, 0 < y := by
    intro y hy
    simp only [hE, List.mem_map] at hy
    obtain ⟨x, _, rfl⟩ := hy
    exact Real.exp_pos _
  have hsum : 0 < E.sum := List.sum_pos E hEpos hEne
  constructor
  · rw [sum_map_div]
    exact div_self (ne_of_gt hsum)
  · intro x hx
    simp only [List.mem_map] at hx
    obtain ⟨y, hy, rfl⟩ := hx
    constructor
    · exact div_nonneg (le_of_lt (hEpos y hy)) (le_of_lt hsum)
    · rw [div_le_one hsum]
      exact List.single_le_sum (fun z hz => le_of_lt (hEpos z hz)) y hy

/-- Witness for C5: the first output row at the concrete input `[[0, 1]]`
sums to `1`. -/
theorem softmax_rows_sum_one_witness :
    ((softmax [[(0 : ℝ), 1]]).headD []).sum = 1 :=
  (softmax_rows_sum_one [[(0 : ℝ), 1]] (by simp) ((softmax [[(0 : ℝ), 1]]).headD [])
    (headD_mem _ _ (by simp [softmax]))).1

lemma matShape_relu {m : Mat} {r c : ℕ} (h : matShape m r c) : matShape (relu m) r c := by
  obtain ⟨hlen, hrows⟩ := h
  constructor
  · simp [relu, hlen]
  · intro row hrow
    simp only [relu, List.mem_map] at hrow
    obtain ⟨row₀, hrow₀, rfl⟩ := hrow
    simp [hrows row₀ hrow₀]

lemma matShape_softmax {m : Mat} {r c : ℕ} (h : matShape m r c) : matShape (softmax m) r c := by
  obtain ⟨hlen, hrows⟩ := h
  constructor
  · simp [softmax, hlen]
  · intro row hrow
    simp only [softmax, List.mem_map] at hrow
    obtain ⟨r1, ⟨row₀, hrow₀, rfl⟩, rfl⟩ := hrow
    simp [hrows row₀ hrow₀]

lemma matShape_matmul {a w : Mat} {R N : ℕ} (ha : a.length = R) (hw : dim1 w = N) :
    matShape (matmul a w) R N := by
  constructor
  · simp [matmul, ha]
  · intro row hrow
    simp only [matmul, List.mem_map] at hrow
    obtain ⟨row₀, _, rfl⟩ := hrow
    simp [hw]

lemma matShape_addBias {m : Mat} {b : Vec} {R N : ℕ} (hm : matShape m R N)
    (hb : b.length = N) : matShape (addBias m b) R N := by
  obtain ⟨hlen, hrows⟩ := hm
  constructor
  · simp [addBias, hlen]
  · intro row hrow
    simp only [addBias, List.mem_map] at hrow
    obtain ⟨row₀, hrow₀, rfl⟩ := hrow
    simp [hrows row₀ hrow₀, hb]

/-- C3: for an `R × F` input and a well-formed layer (weights `F × N`, biases
of length `N`), `forward` returns an `R × N` matrix and equals the bound
activation applied to `input · weights + biases` with the bias vector
broadcast across the rows.  In the embedding `forward` is a pure function of
the layer fields and the input by construction — it takes the layer as a value
and returns only the output matrix.  (`0 < F` is required because the list
model cannot record the column count of a zero-row weight matrix.) -/
theorem forward_spec {N F : ℕ} (l : Layer N F) (inputs : Mat) (R : ℕ)
    (hin : matShape inputs R F) (hw : matShape l.weights F N)
    (hb : l.biases.length = N) (hF : 0 < F) :
    matShape (l.forward inputs) R N ∧
    l.forward inputs =
      ActivationFunction.forward ⟨l.activation⟩
        (addBias (matmul inputs l.weights) l.biases) := by
  obtain ⟨w, b, act⟩ := l
  have hd1 : dim1 w = N := dim1_of_shape hw hF
  have h1 : matShape (matmul inputs w) R N := matShape_matmul hin.1 hd1
  have h2 : matShape (addBias (matmul inputs w) b) R N := matShape_addBias h1 hb
  cases act with
  | ReLU => exact ⟨matShape_relu h2, by simp [Layer.forward, ActivationFunction.forward]⟩
  | Softmax => exact ⟨matShape_softmax h2, by simp [Layer.forward, ActivationFunction.forward]⟩

/-- Witness for C3: a `1 × 1` ReLU layer applied to a `1 × 1` input. -/
theorem forward_spec_witness :
    matShape ((Layer.mk [[2]] [1] .ReLU : Layer 1 1).forward [[3]]) 1 1 :=
  (forward_spec (Layer.mk [[2]] [1] .ReLU : Layer 1 1) [[3]] 1
    (by constructor <;> simp) (by constructor <;> simp) (by simp) (by norm_num)).1

lemma mapM_get?_eq (l : List (Vec × ℕ)) (h : ∀ p ∈ l, p.2 < p.1.length) :
    l.mapM (fun p => p.1[p.2]?) = some (l.map (fun p => p.1.getD p.2 0)) := by
  induction l with
  | nil => rfl
  | cons p t ih =>
    have hp : p.2 < p.1.length := h p (List.mem_cons_self p t)
    have hg : p.1[p.2]? = some (p.1.getD p.2 0) := by
      rw [List.getElem?_eq_getElem hp, List.getD_eq_getElem _ _ hp]
    rw [List.mapM_cons, hg, ih (fun q hq => h q (List.mem_cons_of_mem p hq))]
    rfl

lemma mapM_get?_mem (l : List (Vec × ℕ)) (cs : Vec)
    (h : l.mapM (fun p => p.1[p.2]?) = some cs) :
    ∀ conf ∈ cs, ∃ p ∈ l, conf ∈ p.1 := by
  induction l generalizing cs with
  | nil =>
    simp only [List.mapM_nil, pure, Option.some_inj] at h
    subst h
    simp
  | cons p t ih =>
    rw [List.mapM_cons] at h
    cases hg : p.1[p.2]? with
    | none => rw [hg] at h; simp at h
    | some b =>
      rw [hg] at h
      cases ht : t.mapM (fun q => q.1[q.2]?) with
      | none => rw [ht] at h; simp at h
      | some bs =>
        rw [ht] at h
        simp at h
        subst h
        intro conf hconf
        rcases List.mem_cons.mp hconf with rfl | hconf
        · exact ⟨p, List.mem_cons_self p t, List.getElem?_mem hg⟩
        · obtain ⟨q, hq, hmem⟩ := ih bs ht conf hconf
          exact ⟨q, List.mem_cons_of_mem p hq, hmem⟩

/-- C10: the sparse confidence extraction indexes each prediction row with the
raw class index.  At `outputs = [[1, 0]]`, `targets = [2]` the lookup is out
of bounds, i.e. the Rust code panics (`none` in the embedding); the `none`
branch is unreachable precisely under the precondition that every paired
class index is smaller than the length of its prediction row. -/
theorem sparse_confidences_oob :
    CrossEntropy.determine_correct_confidences_sparse [[(1 : ℝ), 0]] [2] = none ∧
    ∀ (outputs : Mat) (targets : List ℕ),
      (∀ p ∈ outputs.zip targets, p.2 < p.1.length) →
      (CrossEntropy.determine_correct_confidences_sparse outputs targets).isSome := by
  constructor
  · rfl
  · intro outputs targets h
    rw [CrossEntropy.determine_correct_confidences_sparse, mapM_get?_eq _ h]
    rfl

/-- Witness for C10 at an in-bounds input. -/
theorem sparse_confidences_oob_witness :
    (CrossEntropy.determine_correct_confidences_sparse [[(1 : ℝ), 0]] [1]).isSome :=
  sparse_confidences_oob.2 [[(1 : ℝ), 0]] [1] (by simp)

/-- C9: `LossFunction::calculate` routes on the encoding tag of the target
data to the matching `CrossEntropy` entry point and reduces the per-example
loss vector with `.mean().unwrap_or(0.0)` — the arithmetic mean, with the
empty vector (empty batch) giving `0.0` instead of failing. -/
theorem calculate_dispatch :
    (∀ (outputs d : Mat),
      LossFunction.calculate outputs (.onehot d) =
        (CrossEntropy.forward_onehot outputs d).map (fun v => (meanOpt v).getD 0)) ∧
    (∀ (outputs : Mat) (d : List ℕ),
      LossFunction.calculate outputs (.sparse d) =
        (CrossEntropy.forward_sparse outputs d).map (fun v => (meanOpt v).getD 0)) ∧
    (∀ v : Vec, v ≠ [] → (meanOpt v).getD 0 = v.sum / v.length) ∧
    ((meanOpt []).getD 0 = 0) ∧
    LossFunction.calculate [] (.sparse []) = some 0 ∧
    LossFunction.calculate [] (.onehot []) = some 0 := by
  refine ⟨fun _ _ => rfl, fun _ _ => rfl, ?_, rfl, rfl, rfl⟩
  intro v hv
  have : v.length ≠ 0 := by simpa [List.length_eq_zero] using hv
  simp [meanOpt, this]

/-- Witness for C9: the mean of the nonempty loss vector `[1]`. -/
theorem calculate_dispatch_witness :
    (meanOpt [(1 : ℝ)]).getD 0 = List.sum [(1 : ℝ)] / (List.length [(1 : ℝ)] : ℝ) :=
  calculate_dispatch.2.2.1 [(1 : ℝ)] (by simp)

/-- C6 counterexample: the claim says both cross-entropy entry points
truncate zip-like at the shorter length and do not fail.  For the one-hot
entry point with `2 × 2` predictions and `3 × 2` targets the elementwise
product cannot broadcast a 3-row array to a 2-row array, so the Rust code
panics (`none` in the embedding) instead of returning a length-2 loss
vector. -/
theorem onehot_mismatch_cex :
    CrossEntropy.forward_onehot [[(1 : ℝ), 0], [0, 1]] [[1, 0], [0, 1], [1, 0]] = none := by
  rfl

/-- C6 amended: the sparse entry point does pair examples with targets
zip-like, truncating at the shorter length (when the paired class indices are
in bounds); the one-hot entry point does not truncate — when the target row
count differs from the prediction row count and is not `1` (the only
broadcastable case) it panics. -/
theorem loss_truncation_amended :
    (∀ (outputs : Mat) (targets : List ℕ),
      (∀ p ∈ outputs.zip targets, p.2 < p.1.length) →
      ∃ v, CrossEntropy.forward_sparse outputs targets = some v ∧
        v.length = min outputs.length targets.length) ∧
    (∀ outputs targets : Mat,
      dim0 targets ≠ dim0 outputs → dim0 targets ≠ 1 →
      CrossEntropy.forward_onehot outputs targets = none) := by
  constructor
  · intro outputs targets h
    have hzip : (CrossEntropy.clip_values outputs).zip targets =
        (outputs.zip targets).map
          (Prod.map (fun row => row.map (fun x => max 1e-7 (min x (1 - 1e-7)))) id) :=
      List.zip_map_left _ _ _
    have hvalid : ∀ p ∈ (CrossEntropy.clip_values outputs).zip targets, p.2 < p.1.length := by
      rw [hzip]
      intro p hp
      simp only [List.mem_map] at hp
      obtain ⟨q, hq, rfl⟩ := hp
      simpa using h q hq
    refine ⟨CrossEntropy.cross_entropy
        (((CrossEntropy.clip_values outputs).zip targets).map (fun p => p.1.getD p.2 0)),
      ?_, ?_⟩
    · rw [CrossEntropy.forward_sparse, CrossEntropy.determine_correct_confidences_sparse,
        mapM_get?_eq _ hvalid]
      rfl
    · simp [CrossEntropy.cross_entropy, CrossEntropy.clip_values]
  · intro outputs targets h1 h2
    have hd : dim0 (CrossEntropy.clip_values outputs) = dim0 outputs := by
      simp [CrossEntropy.clip_values, dim0]
    have hcond : ¬((dim0 targets = dim0 (CrossEntropy.clip_values outputs) ∨ dim0 targets = 1) ∧
        (dim1 targets = dim1 (CrossEntropy.clip_values outputs) ∨ dim1 targets = 1)) := by
      rw [hd]
      rintro ⟨h3 | h3, -⟩
      · exact h1 h3
      · exact h2 h3
    rw [CrossEntropy.forward_onehot, CrossEntropy.determine_correct_confidences_one_hot,
      CrossEntropy.broadcastMul, if_neg hcond]
    rfl

/-- Witness for C6 amended: three predictions scored against two sparse
targets give two losses. -/
theorem loss_truncation_amended_witness :
    ∃ v, CrossEntropy.forward_sparse [[(1 : ℝ), 0], [0, 1], [1, 0]] [0, 1] = some v ∧
      v.length = min 3 2 :=
  loss_truncation_amended.1 [[(1 : ℝ), 0], [0, 1], [1, 0]] [0, 1] (by decide)

lemma matShape_clip {m : Mat} {r c : ℕ} (h : matShape m r c) :
    matShape (CrossEntropy.clip_values m) r c := by
  obtain ⟨hlen, hrows⟩ := h
  constructor
  · simp [CrossEntropy.clip_values, hlen]
  · intro row hrow
    simp only [CrossEntropy.clip_values, List.mem_map] at hrow
    obtain ⟨row₀, hrow₀, rfl⟩ := hrow
    simp [hrows row₀ hrow₀]

lemma sum_range_mul_indicator (f : ℕ → ℝ) (c t : ℕ) (ht : t < c) :
    ((List.range c).map (fun j => f j * if j = t then 1 else 0)).sum = f t := by
  induction c with
  | zero => omega
  | succ n ih =>
    rw [List.range_succ, List.map_append, List.sum_append]
    rcases Nat.lt_succ_iff_lt_or_eq.mp ht with h | rfl
    · have hlast : (List.map (fun j => f j * if j = t then (1 : ℝ) else 0) [n]).sum = 0 := by
        simp only [List.map_cons, List.map_nil, List.sum_cons, List.sum_nil]
        rw [if_neg (by omega)]
        ring
      rw [ih h, hlast, add_zero]
    · have hz : ((List.range t).map (fun j => f j * if j = t then (1 : ℝ) else 0)).sum = 0 := by
        apply List.sum_eq_zero
        intro x hx
        simp only [List.mem_map, List.mem_range] at hx
        obtain ⟨j, hj, rfl⟩ := hx
        rw [if_neg (by omega)]
        ring
      rw [hz, zero_add]
      simp only [List.map_cons, List.map_nil, List.sum_cons, List.sum_nil]
      norm_num

lemma determine_sparse_eq (Q : Mat) (labels : List ℕ) (r c : ℕ)
    (hQ : matShape Q r c) (hv : ∀ t ∈ labels, t < c) :
    CrossEntropy.determine_correct_confidences_sparse Q labels =
      some ((Q.zip labels).map (fun p => p.1.getD p.2 0)) := by
  refine mapM_get?_eq _ ?_
  rintro ⟨a, b⟩ hp
  obtain ⟨ha, hb⟩ := List.of_mem_zip hp
  have : a.length = c := hQ.2 a ha
  simpa [this] using hv b hb

lemma determine_onehot_eq (Q : Mat) (labels : List ℕ) (r c : ℕ)
    (hQ : matShape Q r c) (hl : labels.length = r) (hv : ∀ t ∈ labels, t < c) :
    CrossEntropy.determine_correct_confidences_one_hot Q (oneHotEncode labels c) =
      some ((Q.zip labels).map (fun p => p.1.getD p.2 0)) := by
  rcases Nat.eq_zero_or_pos r with hr | hr
  · have hQnil : Q = [] := List.length_eq_zero.mp (by rw [hQ.1, hr])
    have hlnil : labels = [] := List.length_eq_zero.mp (by rw [hl, hr])
    subst hQnil hlnil
    rfl
  · have hd0Q : dim0 Q = r := hQ.1
    have hd1Q : dim1 Q = c := dim1_of_shape hQ hr
    have hd0T : dim0 (oneHotEncode labels c) = r := by simp [oneHotEncode, dim0, hl]
    have hd1T : dim1 (oneHotEncode labels c) = c := by
      cases labels with
      | nil =>
        exfalso
        rw [← hl] at hr
        exact Nat.lt_irrefl 0 hr
      | cons t ts => simp [oneHotEncode, dim1]
    rw [CrossEntropy.determine_correct_confidences_one_hot, CrossEntropy.broadcastMul,
      hd0Q, hd1Q, hd0T, hd1T, if_pos (by simp), Option.map_some']
    congr 1
    apply List.ext_getElem
    · simp [hQ.1, hl]
    · intro i h1 h2
      have hi : i < r := by
        simp only [List.length_map, List.length_range] at h1
        exact h1
      have hiQ : i < Q.length := by rw [hQ.1]; exact hi
      have hil : i < labels.length := by rw [hl]; exact hi
      have hig : (if r = 1 then 0 else i) = i := by
        split_ifs with h
        · omega
        · rfl
      simp only [List.getElem_map, List.getElem_range, List.getElem_zip, hig]
      have hQD : Q.getD i [] = Q[i] := List.getD_eq_getElem Q [] hiQ
      have hTD : (oneHotEncode labels c).getD i [] =
          (List.range c).map (fun j => if j = labels[i] then (1 : ℝ) else 0) := by
        have hiT : i < (oneHotEncode labels c).length := by
          simp [oneHotEncode, hl]
          exact hi
        rw [List.getD_eq_getElem _ _ hiT]
        simp [oneHotEncode]
      rw [hQD, hTD]
      have hmap : (List.range c).map (fun j =>
            Q[i].getD j 0 *
              ((List.range c).map (fun k => if k = labels[i] then (1 : ℝ) else 0)).getD
                (if c = 1 then 0 else j) 0) =
          (List.range c).map (fun j => Q[i].getD j 0 * if j = labels[i] then 1 else 0) := by
        apply List.map_congr_left
        intro j hj
        have hjc : j < c := List.mem_range.mp hj
        have hjg : (if c = 1 then 0 else j) = j := by
          split_ifs with h
          · omega
          · rfl
        have hjT : j < ((List.range c).map (fun k => if k = labels[i] then (1 : ℝ) else 0)).length := by
          simp [hjc]
        rw [hjg, List.getD_eq_getElem _ _ hjT]
        simp
      rw [hmap, sum_range_mul_indicator (fun j => Q[i].getD j 0) c labels[i]
        (hv labels[i] (List.getElem_mem hil))]

/-- C7: scoring predictions against the sparse encoding of a list of labels
and against the one-hot encoding of the same labels yields identical
per-example confidences (first conjunct, on the clipped predictions exactly
as the loss pipeline computes them) and identical mean loss through
`LossFunction::calculate` (second conjunct). -/
theorem encoding_equivalence (P : Mat) (labels : List ℕ) (r c : ℕ)
    (hP : matShape P r c) (hl : labels.length = r) (hv : ∀ t ∈ labels, t < c) :
    CrossEntropy.determine_correct_confidences_sparse (CrossEntropy.clip_values P) labels =
      CrossEntropy.determine_correct_confidences_one_hot (CrossEntropy.clip_values P)
        (oneHotEncode labels c) ∧
    LossFunction.calculate P (.sparse labels) =
      LossFunction.calculate P (.onehot (oneHotEncode labels c)) := by
  have hQ : matShape (CrossEntropy.clip_values P) r c := matShape_clip hP
  have hs := determine_sparse_eq (CrossEntropy.clip_values P) labels r c hQ hv
  have ho := determine_onehot_eq (CrossEntropy.clip_values P) labels r c hQ hl hv
  constructor
  · rw [hs, ho]
  · show (CrossEntropy.forward_sparse P labels).map (fun v => (meanOpt v).getD 0) =
      (CrossEntropy.forward_onehot P (oneHotEncode labels c)).map (fun v => (meanOpt v).getD 0)
    rw [CrossEntropy.forward_sparse, CrossEntropy.forward_onehot, hs, ho]

/-- Witness for C7 at the predictions and labels of the spec example. -/
theorem encoding_equivalence_witness :
    LossFunction.calculate [[0.7, 0.1, 0.2], [0.1, 0.5, 0.4], [0.02, 0.9, 0.08]]
        (.sparse [0, 1, 1]) =
      LossFunction.calculate [[0.7, 0.1, 0.2], [0.1, 0.5, 0.4], [0.02, 0.9, 0.08]]
        (.onehot (oneHotEncode [0, 1, 1] 3)) :=
  (encoding_equivalence [[0.7, 0.1, 0.2], [0.1, 0.5, 0.4], [0.02, 0.9, 0.08]] [0, 1, 1] 3 3
    (by constructor
        · rfl
        · intro row hrow
          simp only [List.mem_cons, List.not_mem_nil, or_false] at hrow
          rcases hrow with rfl | rfl | rfl <;> rfl)
    (by rfl) (by decide)).2

lemma clip_mem_bounds (values : Mat) :
    ∀ row ∈ CrossEntropy.clip_values values, ∀ x ∈ row, (1e-7 : ℝ) ≤ x ∧ x ≤ 1 - 1e-7 := by
  intro row hrow x hx
  simp only [CrossEntropy.clip_values, List.mem_map] at hrow
  obtain ⟨row₀, _, rfl⟩ := hrow
  simp only [List.mem_map] at hx
  obtain ⟨y, _, rfl⟩ := hx
  refine ⟨le_max_left _ _, max_le (by norm_num) (min_le_right _ _)⟩

lemma neg_log_bounds {conf : ℝ} (h1 : (1e-7 : ℝ) ≤ conf) (h2 : conf ≤ 1 - 1e-7) :
    0 ≤ -1 * Real.log conf ∧ -1 * Real.log conf ≤ -1 * Real.log 1e-7 := by
  have hpos : (0 : ℝ) < 1e-7 := by norm_num
  have hcpos : 0 < conf := lt_of_lt_of_le hpos h1
  constructor
  · have hle : Real.log conf ≤ 0 :=
      Real.log_nonpos (le_of_lt hcpos) (le_trans h2 (by norm_num))
    linarith
  · have hle : Real.log 1e-7 ≤ Real.log conf := Real.log_le_log hpos h1
    linarith

/-- C8: `clip_values` clamps every prediction into `[1e-7, 1 - 1e-7]` (first
conjunct); `forward_sparse` is exactly `-ln` of the confidences selected from
the clipped predictions (second conjunct, definitional); and every
per-example loss either entry point produces for a well-formed target (valid
sparse index, or the one-hot encoding of valid labels) is non-negative and
bounded above by `-ln(1e-7)` — the embedding's rendering of finiteness, since
an unclipped zero confidence would give `ln 0 = -∞` in `f64`. -/
theorem cross_entropy_clip_bounds :
    (∀ (values : Mat), ∀ row ∈ CrossEntropy.clip_values values,
      ∀ x ∈ row, (1e-7 : ℝ) ≤ x ∧ x ≤ 1 - 1e-7) ∧
    (∀ (outputs : Mat) (targets : List ℕ),
      CrossEntropy.forward_sparse outputs targets =
        (CrossEntropy.determine_correct_confidences_sparse
          (CrossEntropy.clip_values outputs) targets).map
            (fun cs => cs.map (fun conf => -1 * Real.log conf))) ∧
    (∀ (outputs : Mat) (targets : List ℕ) (v : Vec),
      CrossEntropy.forward_sparse outputs targets = some v →
      ∀ x ∈ v, 0 ≤ x ∧ x ≤ -1 * Real.log 1e-7) ∧
    (∀ (outputs : Mat) (labels : List ℕ) (r c : ℕ) (v : Vec),
      matShape outputs r c → labels.length = r → (∀ t ∈ labels, t < c) →
      CrossEntropy.forward_onehot outputs (oneHotEncode labels c) = some v →
      ∀ x ∈ v, 0 ≤ x ∧ x ≤ -1 * Real.log 1e-7) := by
  refine ⟨clip_mem_bounds, fun _ _ => rfl, ?_, ?_⟩
  · intro outputs targets v hv x hx
    rw [CrossEntropy.forward_sparse] at hv
    rcases Option.map_eq_some'.mp hv with ⟨cs, hcs, rfl⟩
    simp only [CrossEntropy.cross_entropy, List.mem_map] at hx
    obtain ⟨conf, hconf, rfl⟩ := hx
    obtain ⟨p, hp, hmem⟩ :=
      mapM_get?_mem ((CrossEntropy.clip_values outputs).zip targets) cs hcs conf hconf
    obtain ⟨a, b⟩ := p
    have ha := (List.of_mem_zip hp).1
    obtain ⟨h1, h2⟩ := clip_mem_bounds outputs a ha conf hmem
    exact neg_log_bounds h1 h2
  · intro outputs labels r c v hshape hlen hvalid hfwd x hx
    have hQ : matShape (CrossEntropy.clip_values outputs) r c := matShape_clip hshape
    rw [CrossEntropy.forward_onehot,
      determine_onehot_eq _ labels r c hQ hlen hvalid] at hfwd
    simp only [Option.map_some', Option.some_inj] at hfwd
    subst hfwd
    simp only [CrossEntropy.cross_entropy, List.map_map, List.mem_map, Function.comp] at hx
    obtain ⟨⟨a, b⟩, hp, rfl⟩ := hx
    obtain ⟨ha, hb⟩ := List.of_mem_zip hp
    have hac : a.length = c := hQ.2 a ha
    have hbc : b < a.length := by rw [hac]; exact hvalid b hb
    have hmem : a.getD b 0 ∈ a := by
      rw [List.getD_eq_getElem a 0 hbc]
      exact List.getElem_mem hbc
    obtain ⟨h1, h2⟩ := clip_mem_bounds outputs a ha _ hmem
    exact neg_log_bounds h1 h2

/-- Witness for C8: clipping the prediction value `0.5`. -/
theorem cross_entropy_clip_bounds_witness :
    (1e-7 : ℝ) ≤ max (1e-7 : ℝ) (min 0.5 (1 - 1e-7)) ∧
      max (1e-7 : ℝ) (min 0.5 (1 - 1e-7)) ≤ 1 - 1e-7 :=
  cross_entropy_clip_bounds.1 [[(0.5 : ℝ)]] [max (1e-7 : ℝ) (min 0.5 (1 - 1e-7))]
    (by simp [CrossEntropy.clip_values]) (max (1e-7 : ℝ) (min 0.5 (1 - 1e-7))) (by simp)

/-- C1: the spec invariant says the weight matrix always has shape
`FAN_IN × NEURONS` and the bias vector length `NEURONS`.  Construction does
establish this (first conjunct), but `set_weights` validates the transposed
shape: on a `Layer 3 4` (3 neurons, fan-in 4) it accepts a `3 × 4` matrix and
stores it, leaving the weights in shape `NEURONS × FAN_IN`, not
`FAN_IN × NEURONS` (second conjunct) — a bug: `forward` multiplies
`inputs.dot(&weights)` and needs `FAN_IN` rows. -/
theorem layer_weight_shape_bug :
    (∀ (N F : ℕ) (act : LayerActivation) (sample : ℕ → ℕ → ℝ),
      matShape (Layer.new N F act sample).weights F N ∧
      (Layer.new N F act sample).biases.length = N) ∧
    (((Layer.new 3 4 .ReLU (fun _ _ => 0)).set_weights
        [[1, 2, 3, 4], [5, 6, 7, 8], [9, 10, 11, 12]]).2 = none ∧
      matShape (((Layer.new 3 4 .ReLU (fun _ _ => 0)).set_weights
        [[1, 2, 3, 4], [5, 6, 7, 8], [9, 10, 11, 12]]).1).weights 3 4 ∧
      ¬ matShape (((Layer.new 3 4 .ReLU (fun _ _ => 0)).set_weights
        [[1, 2, 3, 4], [5, 6, 7, 8], [9, 10, 11, 12]]).1).weights 4 3) := by
  constructor
  · intro N F act sample
    constructor
    · constructor
      · simp [Layer.new, randomWeights]
      · intro row hrow
        simp only [Layer.new, randomWeights, List.map_map, List.mem_map] at hrow
        obtain ⟨i, _, rfl⟩ := hrow
        simp
    · simp [Layer.new]
  · refine ⟨?_, ?_, ?_⟩
    · simp [Layer.set_weights, dim0, dim1]
    · constructor
      · simp [Layer.set_weights, dim0, dim1]
      · intro row hrow
        simp only [Layer.set_weights, dim0, dim1] at hrow
        norm_num at hrow
        rcases hrow with rfl | rfl | rfl <;> simp
    · intro h
      have := h.1
      simp [Layer.set_weights, dim0, dim1] at this

/-- C2: `set_weights` succeeds exactly on `N × F` matrices and `set_biases`
exactly on length-`N` vectors; each failure returns the dimension-mismatch
message built from the expected and actual counts and leaves the layer
unchanged.  (The zero-row case is excluded because the list model cannot
record the column count of an empty ndarray matrix.) -/
theorem set_weights_set_biases_spec {N F : ℕ} (l : Layer N F) (m : Mat) (b : Vec)
    (r c : ℕ) (hm : matShape m r c) (hr : 0 < r) :
    ((l.set_weights m).2 = none ↔ r = N ∧ c = F) ∧
    (r = N ∧ c = F → l.set_weights m = ({ l with weights := m }, none)) ∧
    (r ≠ N → l.set_weights m =
      (l, some (.IncorrectDimension (weightsRowsMsg N r)))) ∧
    (r = N → c ≠ F → l.set_weights m =
      (l, some (.IncorrectDimension (weightsColsMsg F c)))) ∧
    ((l.set_biases b).2 = none ↔ b.length = N) ∧
    (b.length = N → l.set_biases b = ({ l with biases := b }, none)) ∧
    (b.length ≠ N → l.set_biases b =
      (l, some (.IncorrectDimension (biasesMsg N b.length)))) := by
  have hd0 : dim0 m = r := hm.1
  have hd1 : dim1 m = c := dim1_of_shape hm hr
  have hw : l.set_weights m =
      if r ≠ N then (l, some (.IncorrectDimension (weightsRowsMsg N r)))
      else if c ≠ F then (l, some (.IncorrectDimension (weightsColsMsg F c)))
      else ({ l with weights := m }, none) := by
    simp only [Layer.set_weights, hd0, hd1]
  have hb : l.set_biases b =
      if b.length ≠ N then (l, some (.IncorrectDimension (biasesMsg N b.length)))
      else ({ l with biases := b }, none) := by
    simp only [Layer.set_biases]
  refine ⟨?_, ?_, ?_, ?_, ?_, ?_, ?_⟩
  · rw [hw]; split_ifs with h1 h2 <;> simp_all
  · rintro ⟨rfl, rfl⟩; rw [hw]; simp
  · intro h; rw [hw]; simp [h]
  · intro h1 h2; rw [hw]; simp [h1, h2]
  · rw [hb]; split_ifs with h1 <;> simp_all
  · intro h; rw [hb]; simp [h]
  · intro h; rw [hb]; simp [h]

/-- Witness for C2 at a concrete `Layer 2 3` and a `2 × 3` matrix. -/
theorem set_weights_set_biases_spec_witness :
    ((Layer.mk [] [] .ReLU : Layer 2 3).set_weights [[1, 2, 3], [4, 5, 6]]).2 = none :=
  ((set_weights_set_biases_spec (Layer.mk [] [] .ReLU : Layer 2 3)
      [[1, 2, 3], [4, 5, 6]] [1, 2] 2 3
      (by constructor <;> simp) (by norm_num)).1).mpr ⟨rfl, rfl⟩
